import Mathlib

/-!
Shallow embedding of the FIFO trade-ledger engine implemented in
`src/trades_dashboard/trade_blotter.py`, function `build_fifo_ledger`,
together with proofs of the specification claims about it.

The Python engine works on `Decimal` values; we model them as exact
rationals (`ℚ`).  Every addition, subtraction, multiplication, `min`,
`abs` and comparison the engine performs is exact on `Decimal` for the
magnitudes involved, so `ℚ` is a faithful model (the only inexact
Decimal operation, the 28-significant-digit division used for the
display-only average-cost column, is idealised as exact rational
division; no claim concerns that column).

The Python local variable `unrealized_pnl` is bound only inside the
per-trade loop but is read by the summary construction after the loop;
we model this binding state with an `Option ℚ` field of the engine
state (`none` = the name is unbound, which on an empty input makes the
summary construction fail with a `NameError`; the whole call is
therefore modelled as returning an `Option`).
-/

namespace TradeBlotter

/-- One input trade: `trade_date` (used only for echo into the ledger
row), signed `quantity` (positive = buy, negative = sell) and a unit
`price`, mirroring the columns read by `build_fifo_ledger`. -/
structure Trade where
  trade_date : Nat
  quantity : ℚ
  price : ℚ
  deriving DecidableEq

/-- One open inventory lot, mirroring the dict
`{"remaining_qty": ..., "price": ...}` the Python engine stores in its
`open_long_lots` / `open_short_lots` lists. -/
structure Lot where
  remaining_qty : ℚ
  price : ℚ
  deriving DecidableEq

/-- One ledger row, mirroring the dict appended to `ledger_rows`
(field order follows the Python dict literal). -/
structure LedgerRow where
  trade_date : Nat
  side : String
  quantity : ℚ
  price : ℚ
  trade_notional : ℚ
  gross_notional : ℚ
  running_position : ℚ
  avg_cost_basis : ℚ
  realized_pnl_trade : ℚ
  total_realized_pnl : ℚ
  total_unrealized_pnl : ℚ
  deriving DecidableEq

/-- The engine's mutable state across loop iterations.
`unrealized_pnl` models the Python local of the same name: it is
`none` until the first iteration of the loop binds it. -/
structure EngineState where
  open_long_lots : List Lot
  open_short_lots : List Lot
  running_position : ℚ
  realized_pnl_total : ℚ
  unrealized_pnl : Option ℚ
  deriving DecidableEq

/-- State at function entry: both queues empty, accumulators zero,
`unrealized_pnl` not yet bound. -/
def initState : EngineState :=
  { open_long_lots := [], open_short_lots := [],
    running_position := 0, realized_pnl_total := 0, unrealized_pnl := none }

/-- The buy-side matching loop (`while buy_qty > 0 and open_short_lots`):
consumes short lots from the front of the queue, matching
`min(lot.remaining_qty, buy_qty)` units each step and realizing
`matched * (lot.price - price)` per match.  Returns the remaining short
queue, the unmatched buy quantity, and the realized P&L of the loop. -/
def coverShorts (price : ℚ) : List Lot → ℚ → List Lot × ℚ × ℚ
  | [], buy_qty => ([], buy_qty, 0)
  | lot :: rest, buy_qty =>
    if 0 < buy_qty then
      let matched := min lot.remaining_qty buy_qty
      let pnl := matched * (lot.price - price)
      if lot.remaining_qty - matched = 0 then
        let r := coverShorts price rest (buy_qty - matched)
        (r.1, r.2.1, pnl + r.2.2)
      else
        ({ remaining_qty := lot.remaining_qty - matched, price := lot.price } :: rest,
          buy_qty - matched, pnl)
    else (lot :: rest, buy_qty, 0)

/-- The sell-side matching loop (`while sell_qty > 0 and open_long_lots`):
consumes long lots from the front of the queue, realizing
`matched * (price - lot.price)` per match. -/
def closeLongs (price : ℚ) : List Lot → ℚ → List Lot × ℚ × ℚ
  | [], sell_qty => ([], sell_qty, 0)
  | lot :: rest, sell_qty =>
    if 0 < sell_qty then
      let matched := min lot.remaining_qty sell_qty
      let pnl := matched * (price - lot.price)
      if lot.remaining_qty - matched = 0 then
        let r := closeLongs price rest (sell_qty - matched)
        (r.1, r.2.1, pnl + r.2.2)
      else
        ({ remaining_qty := lot.remaining_qty - matched, price := lot.price } :: rest,
          sell_qty - matched, pnl)
    else (lot :: rest, sell_qty, 0)

/-- Instrumentation of the matching loop: the sequence of matches it
performs, each recorded as (matched quantity, unit cost of the consumed
lot).  The branch structure is exactly that of `coverShorts` and
`closeLongs`, whose per-match quantity is `min lot.remaining_qty q`. -/
def lotMatches : List Lot → ℚ → List (ℚ × ℚ)
  | [], _ => []
  | lot :: rest, q =>
    if 0 < q then
      let matched := min lot.remaining_qty q
      if lot.remaining_qty - matched = 0 then
        (matched, lot.price) :: lotMatches rest (q - matched)
      else [(matched, lot.price)]
    else []

/-- Mark-to-market of all open lots at `price`: long lots contribute
`remaining_qty * (price - lot.price)`, short lots
`remaining_qty * (lot.price - price)` (the two `for` loops computing
`unrealized_pnl` in the source). -/
def markUnrealized (price : ℚ) (longs shorts : List Lot) : ℚ :=
  (longs.map (fun lot => lot.remaining_qty * (price - lot.price))).sum
    + (shorts.map (fun lot => lot.remaining_qty * (lot.price - price))).sum

/-- The tail of one loop iteration, common to the buy and sell
branches: accumulate realized P&L, recompute unrealized P&L, gross
notional and average cost, build the new state and the ledger row. -/
def finishTrade (st : EngineState) (t : Trade) (longs shorts : List Lot)
    (realized_pnl : ℚ) (side_label : String) : EngineState × LedgerRow :=
  let price := t.price
  let running := st.running_position + t.quantity
  let realized_total := st.realized_pnl_total + realized_pnl
  let unreal := markUnrealized price longs shorts
  let remaining_cost := (longs.map (fun lot => lot.remaining_qty * lot.price)).sum
  ({ open_long_lots := longs, open_short_lots := shorts,
     running_position := running, realized_pnl_total := realized_total,
     unrealized_pnl := some unreal },
   { trade_date := t.trade_date, side := side_label, quantity := t.quantity,
     price := price, trade_notional := t.quantity * price,
     gross_notional := |running| * price, running_position := running,
     avg_cost_basis := if 0 < running then remaining_cost / running else 0,
     realized_pnl_trade := realized_pnl, total_realized_pnl := realized_total,
     total_unrealized_pnl := unreal })

/-- One iteration of the engine's `for` loop: classify by the sign of
the quantity, label by the emptiness of the opposite queue at entry,
run the matching loop, open a new lot from any unmatched remainder. -/
def processTrade (st : EngineState) (t : Trade) : EngineState × LedgerRow :=
  if 0 < t.quantity then
    let r := coverShorts t.price st.open_short_lots t.quantity
    finishTrade st t
      (if 0 < r.2.1
        then st.open_long_lots ++ [{ remaining_qty := r.2.1, price := t.price }]
        else st.open_long_lots)
      r.1 r.2.2
      (if st.open_short_lots ≠ [] then "BUY (Cover Short)" else "BUY (Open Long)")
  else
    let r := closeLongs t.price st.open_long_lots (|t.quantity|)
    finishTrade st t
      r.1
      (if 0 < r.2.1
        then st.open_short_lots ++ [{ remaining_qty := r.2.1, price := t.price }]
        else st.open_short_lots)
      r.2.2
      (if st.open_long_lots ≠ [] then "SELL (Close Long)" else "SELL (Open Short)")

/-- Final engine state after replaying a trade list from a state. -/
def runState : EngineState → List Trade → EngineState
  | st, [] => st
  | st, t :: ts => runState (processTrade st t).1 ts

/-- The ledger rows emitted while replaying a trade list from a state,
in emission order. -/
def runRows : EngineState → List Trade → List LedgerRow
  | _, [] => []
  | st, t :: ts => (processTrade st t).2 :: runRows (processTrade st t).1 ts

/-- The summary dict built after the loop, as an ordered key/value
list mirroring the Python dict literal (lot counts are cast). -/
abbrev Summary := List (String × ℚ)

/-- The five summary entries, read off the final state and the final
value of the loop-local `unrealized_pnl`. -/
def mkSummary (st : EngineState) (unreal : ℚ) : Summary :=
  [("Final Position", st.running_position),
   ("Total Realized PnL", st.realized_pnl_total),
   ("Final Unrealized PnL", unreal),
   ("Open Long Lots", (st.open_long_lots.length : ℚ)),
   ("Open Short Lots", (st.open_short_lots.length : ℚ))]

/-- The whole function `build_fifo_ledger`: replay the tape, then
build the summary.  Reading `unrealized_pnl` when the loop never ran
(empty input) is a `NameError` in Python, modelled as `none`. -/
def build_fifo_ledger (trades : List Trade) : Option (List LedgerRow × Summary) :=
  let st := runState initState trades
  match st.unrealized_pnl with
  | none => none
  | some u => some (runRows initState trades, mkSummary st u)

/-- The spec's validity precondition on the input tape: every trade
has non-zero quantity and strictly positive price. -/
abbrev ValidTrades (trades : List Trade) : Prop :=
  ∀ t ∈ trades, t.quantity ≠ 0 ∧ 0 < t.price

/-- Total remaining quantity of a lot queue. -/
def lotTotal (lots : List Lot) : ℚ :=
  (lots.map Lot.remaining_qty).sum

/-! ### Unfolding lemmas -/

theorem lotTotal_nil : lotTotal [] = 0 := rfl

theorem lotTotal_cons (lot : Lot) (rest : List Lot) :
    lotTotal (lot :: rest) = lot.remaining_qty + lotTotal rest := by
  simp [lotTotal]

theorem lotTotal_append (xs ys : List Lot) :
    lotTotal (xs ++ ys) = lotTotal xs + lotTotal ys := by
  simp [lotTotal]

theorem coverShorts_nil (price q : ℚ) : coverShorts price [] q = ([], q, 0) := rfl

theorem closeLongs_nil (price q : ℚ) : closeLongs price [] q = ([], q, 0) := rfl

theorem coverShorts_cons (price : ℚ) (lot : Lot) (rest : List Lot) (q : ℚ) :
    coverShorts price (lot :: rest) q =
      if 0 < q then
        if lot.remaining_qty - min lot.remaining_qty q = 0 then
          ((coverShorts price rest (q - min lot.remaining_qty q)).1,
           (coverShorts price rest (q - min lot.remaining_qty q)).2.1,
           min lot.remaining_qty q * (lot.price - price)
             + (coverShorts price rest (q - min lot.remaining_qty q)).2.2)
        else
          ({ remaining_qty := lot.remaining_qty - min lot.remaining_qty q,
              price := lot.price } :: rest,
            q - min lot.remaining_qty q, min lot.remaining_qty q * (lot.price - price))
      else (lot :: rest, q, 0) := rfl

theorem closeLongs_cons (price : ℚ) (lot : Lot) (rest : List Lot) (q : ℚ) :
    closeLongs price (lot :: rest) q =
      if 0 < q then
        if lot.remaining_qty - min lot.remaining_qty q = 0 then
          ((closeLongs price rest (q - min lot.remaining_qty q)).1,
           (closeLongs price rest (q - min lot.remaining_qty q)).2.1,
           min lot.remaining_qty q * (price - lot.price)
             + (closeLongs price rest (q - min lot.remaining_qty q)).2.2)
        else
          ({ remaining_qty := lot.remaining_qty - min lot.remaining_qty q,
              price := lot.price } :: rest,
            q - min lot.remaining_qty q, min lot.remaining_qty q * (price - lot.price))
      else (lot :: rest, q, 0) := rfl

theorem lotMatches_cons (lot : Lot) (rest : List Lot) (q : ℚ) :
    lotMatches (lot :: rest) q =
      if 0 < q then
        if lot.remaining_qty - min lot.remaining_qty q = 0 then
          (min lot.remaining_qty q, lot.price)
            :: lotMatches rest (q - min lot.remaining_qty q)
        else [(min lot.remaining_qty q, lot.price)]
      else [] := rfl

theorem finishTrade_state (st : EngineState) (t : Trade) (longs shorts : List Lot)
    (r : ℚ) (lbl : String) :
    (finishTrade st t longs shorts r lbl).1 =
      { open_long_lots := longs, open_short_lots := shorts,
        running_position := st.running_position + t.quantity,
        realized_pnl_total := st.realized_pnl_total + r,
        unrealized_pnl := some (markUnrealized t.price longs shorts) } := rfl

theorem finishTrade_side (st : EngineState) (t : Trade) (longs shorts : List Lot)
    (r : ℚ) (lbl : String) : (finishTrade st t longs shorts r lbl).2.side = lbl := rfl

theorem finishTrade_realized (st : EngineState) (t : Trade) (longs shorts : List Lot)
    (r : ℚ) (lbl : String) :
    (finishTrade st t longs shorts r lbl).2.realized_pnl_trade = r := rfl

theorem finishTrade_unreal (st : EngineState) (t : Trade) (longs shorts : List Lot)
    (r : ℚ) (lbl : String) :
    (finishTrade st t longs shorts r lbl).2.total_unrealized_pnl
      = markUnrealized t.price longs shorts := rfl

theorem processTrade_buy (st : EngineState) (t : Trade) (h : 0 < t.quantity) :
    processTrade st t =
      finishTrade st t
        (if 0 < (coverShorts t.price st.open_short_lots t.quantity).2.1
          then st.open_long_lots
            ++ [{ remaining_qty := (coverShorts t.price st.open_short_lots t.quantity).2.1,
                  price := t.price }]
          else st.open_long_lots)
        (coverShorts t.price st.open_short_lots t.quantity).1
        (coverShorts t.price st.open_short_lots t.quantity).2.2
        (if st.open_short_lots ≠ [] then "BUY (Cover Short)" else "BUY (Open Long)") := by
  simp only [processTrade, if_pos h]

theorem processTrade_sell (st : EngineState) (t : Trade) (h : ¬ 0 < t.quantity) :
    processTrade st t =
      finishTrade st t
        (closeLongs t.price st.open_long_lots (|t.quantity|)).1
        (if 0 < (closeLongs t.price st.open_long_lots (|t.quantity|)).2.1
          then st.open_short_lots
            ++ [{ remaining_qty := (closeLongs t.price st.open_long_lots (|t.quantity|)).2.1,
                  price := t.price }]
          else st.open_short_lots)
        (closeLongs t.price st.open_long_lots (|t.quantity|)).2.2
        (if st.open_long_lots ≠ [] then "SELL (Close Long)" else "SELL (Open Short)") := by
  simp only [processTrade, if_neg h]

theorem processTrade_running (st : EngineState) (t : Trade) :
    (processTrade st t).1.running_position = st.running_position + t.quantity := by
  unfold processTrade
  split <;> rfl

theorem processTrade_side (st : EngineState) (t : Trade) :
    (processTrade st t).2.side =
      if 0 < t.quantity
        then (if st.open_short_lots ≠ [] then "BUY (Cover Short)" else "BUY (Open Long)")
        else (if st.open_long_lots ≠ [] then "SELL (Close Long)" else "SELL (Open Short)") := by
  unfold processTrade
  split <;> simp_all [finishTrade_side]

theorem processTrade_unrealized (st : EngineState) (t : Trade) :
    (processTrade st t).1.unrealized_pnl
      = some (markUnrealized t.price (processTrade st t).1.open_long_lots
          (processTrade st t).1.open_short_lots) := by
  unfold processTrade
  split <;> rfl

theorem runState_nil (st : EngineState) : runState st [] = st := rfl

theorem runState_cons (st : EngineState) (t : Trade) (ts : List Trade) :
    runState st (t :: ts) = runState (processTrade st t).1 ts := rfl

theorem runState_append (st : EngineState) (ts us : List Trade) :
    runState st (ts ++ us) = runState (runState st ts) us := by
  induction ts generalizing st with
  | nil => rfl
  | cons t ts ih => simp [runState_cons, ih]

theorem runRows_nil (st : EngineState) : runRows st [] = [] := rfl

theorem runRows_cons (st : EngineState) (t : Trade) (ts : List Trade) :
    runRows st (t :: ts) = (processTrade st t).2 :: runRows (processTrade st t).1 ts := rfl

theorem runRows_append (st : EngineState) (ts us : List Trade) :
    runRows st (ts ++ us) = runRows st ts ++ runRows (runState st ts) us := by
  induction ts generalizing st with
  | nil => rfl
  | cons t ts ih => simp [runRows_cons, runState_cons, ih]

theorem runRows_length (st : EngineState) (ts : List Trade) :
    (runRows st ts).length = ts.length := by
  induction ts generalizing st with
  | nil => rfl
  | cons t ts ih => simp [runRows_cons, ih]

/-! ### Structure of the matching loops -/

/-- The two matching loops differ only in the sign convention of the
realized P&L; the resulting queue and the leftover quantity coincide. -/
theorem closeLongs_shape (price : ℚ) (lots : List Lot) : ∀ q : ℚ,
    (closeLongs price lots q).1 = (coverShorts price lots q).1
      ∧ (closeLongs price lots q).2.1 = (coverShorts price lots q).2.1 := by
  induction lots with
  | nil => intro q; simp [closeLongs_nil, coverShorts_nil]
  | cons lot rest ih =>
    intro q
    rw [closeLongs_cons, coverShorts_cons]
    split_ifs with hq hm
    · exact ⟨(ih _).1, (ih _).2⟩
    · exact ⟨rfl, rfl⟩
    · exact ⟨rfl, rfl⟩

/-- Each match decrements the queue total and the unmatched quantity by
the same amount, so their difference is conserved by the loop. -/
theorem coverShorts_total (price : ℚ) (lots : List Lot) : ∀ q : ℚ,
    lotTotal (coverShorts price lots q).1 - (coverShorts price lots q).2.1
      = lotTotal lots - q := by
  induction lots with
  | nil => intro q; simp [coverShorts_nil, lotTotal_nil]
  | cons lot rest ih =>
    intro q
    rw [coverShorts_cons]
    split_ifs with hq hm
    · have h1 := ih (q - min lot.remaining_qty q)
      have h2 : lot.remaining_qty = min lot.remaining_qty q := by linarith [sub_eq_zero.mp hm]
      rw [lotTotal_cons]
      linarith
    · rw [lotTotal_cons, lotTotal_cons]
      ring
    · rfl

/-- The loop leaves a positive unmatched quantity only when it ran out
of lots: a positive leftover forces an empty queue. -/
theorem coverShorts_leftover_pos (price : ℚ) (lots : List Lot) : ∀ q : ℚ,
    0 < (coverShorts price lots q).2.1 → (coverShorts price lots q).1 = [] := by
  induction lots with
  | nil => intro q _; rfl
  | cons lot rest ih =>
    intro q hq'
    rw [coverShorts_cons] at hq' ⊢
    split_ifs at hq' ⊢ with hq hm
    · exact ih _ hq'
    · exfalso
      rcases min_cases lot.remaining_qty q with ⟨hmin, hle⟩ | ⟨hmin, hlt⟩
      · exact hm (by rw [hmin]; ring)
      · rw [hmin] at hq'; simp at hq'
    · exact absurd hq' (by simpa using hq)

/-- The unmatched quantity never goes negative. -/
theorem coverShorts_leftover_nonneg (price : ℚ) (lots : List Lot) : ∀ q : ℚ,
    0 ≤ q → 0 ≤ (coverShorts price lots q).2.1 := by
  induction lots with
  | nil => intro q hq; simpa [coverShorts_nil] using hq
  | cons lot rest ih =>
    intro q hq
    rw [coverShorts_cons]
    split_ifs with hq0 hm
    · exact ih _ (by simp [min_le_right lot.remaining_qty q])
    · simp [min_le_right lot.remaining_qty q]
    · exact hq

/-- Strict positivity of the lots in the queue survives the loop. -/
theorem coverShorts_pos (price : ℚ) (lots : List Lot) : ∀ q : ℚ,
    (∀ l ∈ lots, 0 < l.remaining_qty) →
      ∀ l ∈ (coverShorts price lots q).1, 0 < l.remaining_qty := by
  induction lots with
  | nil => intro q _ l hl; simp [coverShorts_nil] at hl
  | cons lot rest ih =>
    intro q hpos l hl
    rw [coverShorts_cons] at hl
    split_ifs at hl with hq hm
    · exact ih _ (fun x hx => hpos x (List.mem_cons_of_mem lot hx)) l hl
    · rcases List.mem_cons.mp hl with h | h
      · subst h
        have hrm := hpos lot (List.mem_cons_self lot rest)
        have : min lot.remaining_qty q ≤ lot.remaining_qty := min_le_left _ _
        have hne : lot.remaining_qty - min lot.remaining_qty q ≠ 0 := hm
        simp only []
        rcases lt_or_eq_of_le (sub_nonneg.mpr this) with hlt | heq
        · exact hlt
        · exact absurd heq.symm hne
      · exact hpos l (List.mem_cons_of_mem lot h)
    · exact hpos l hl

/-- A quantity equal to the whole queue total consumes the queue
exactly: nothing is left on either side. -/
theorem coverShorts_exact (price : ℚ) (lots : List Lot)
    (hpos : ∀ l ∈ lots, 0 < l.remaining_qty) :
    (coverShorts price lots (lotTotal lots)).1 = []
      ∧ (coverShorts price lots (lotTotal lots)).2.1 = 0 := by
  induction lots with
  | nil => simp [coverShorts_nil, lotTotal_nil]
  | cons lot rest ih =>
    have hrm : 0 < lot.remaining_qty := hpos lot (List.mem_cons_self lot rest)
    have hrest : ∀ l ∈ rest, 0 < l.remaining_qty :=
      fun l hl => hpos l (List.mem_cons_of_mem lot hl)
    have hTnn : 0 ≤ lotTotal rest := by
      simpa [lotTotal] using
        List.sum_nonneg (fun x hx => by
          rcases List.mem_map.mp hx with ⟨l, hl, rfl⟩
          exact le_of_lt (hrest l hl))
    have hq : 0 < lotTotal (lot :: rest) := by rw [lotTotal_cons]; linarith
    have hmin : min lot.remaining_qty (lotTotal (lot :: rest)) = lot.remaining_qty := by
      apply min_eq_left; rw [lotTotal_cons]; linarith
    have hrec : lotTotal (lot :: rest) - lot.remaining_qty = lotTotal rest := by
      rw [lotTotal_cons]; ring
    rw [coverShorts_cons, if_pos hq, hmin, if_pos (sub_self lot.remaining_qty), hrec]
    exact ih hrest

/-- Nonnegativity of a queue total whose lots are all positive. -/
theorem lotTotal_nonneg (lots : List Lot) (hpos : ∀ l ∈ lots, 0 < l.remaining_qty) :
    0 ≤ lotTotal lots := by
  simpa [lotTotal] using
    List.sum_nonneg (fun x hx => by
      rcases List.mem_map.mp hx with ⟨l, hl, rfl⟩
      exact le_of_lt (hpos l hl))

/-- The realized P&L accumulated by the sell-side loop is the sum over
its matches of matched quantity times (trade price minus lot cost). -/
theorem closeLongs_realized (price : ℚ) (lots : List Lot) : ∀ q : ℚ,
    (closeLongs price lots q).2.2
      = ((lotMatches lots q).map (fun m => m.1 * (price - m.2))).sum := by
  induction lots with
  | nil => intro q; simp [closeLongs_nil, lotMatches]
  | cons lot rest ih =>
    intro q
    rw [closeLongs_cons, lotMatches_cons]
    split_ifs with hq hm
    · simp [ih]
    · simp
    · simp [lotMatches]

/-- The realized P&L accumulated by the buy-side loop is the sum over
its matches of matched quantity times (lot cost minus trade price). -/
theorem coverShorts_realized (price : ℚ) (lots : List Lot) : ∀ q : ℚ,
    (coverShorts price lots q).2.2
      = ((lotMatches lots q).map (fun m => m.1 * (m.2 - price))).sum := by
  induction lots with
  | nil => intro q; simp [coverShorts_nil, lotMatches]
  | cons lot rest ih =>
    intro q
    rw [coverShorts_cons, lotMatches_cons]
    split_ifs with hq hm
    · simp [ih]
    · simp
    · simp [lotMatches]

/-- Derived structural lemmas for the sell-side loop, via
`closeLongs_shape`. -/
theorem closeLongs_total (price : ℚ) (lots : List Lot) (q : ℚ) :
    lotTotal (closeLongs price lots q).1 - (closeLongs price lots q).2.1
      = lotTotal lots - q := by
  rw [(closeLongs_shape price lots q).1, (closeLongs_shape price lots q).2]
  exact coverShorts_total price lots q

theorem closeLongs_leftover_pos (price : ℚ) (lots : List Lot) (q : ℚ)
    (h : 0 < (closeLongs price lots q).2.1) : (closeLongs price lots q).1 = [] := by
  rw [(closeLongs_shape price lots q).1]
  exact coverShorts_leftover_pos price lots q ((closeLongs_shape price lots q).2 ▸ h)

theorem closeLongs_leftover_nonneg (price : ℚ) (lots : List Lot) (q : ℚ)
    (h : 0 ≤ q) : 0 ≤ (closeLongs price lots q).2.1 := by
  rw [(closeLongs_shape price lots q).2]
  exact coverShorts_leftover_nonneg price lots q h

theorem closeLongs_pos (price : ℚ) (lots : List Lot) (q : ℚ)
    (hpos : ∀ l ∈ lots, 0 < l.remaining_qty) :
    ∀ l ∈ (closeLongs price lots q).1, 0 < l.remaining_qty := by
  rw [(closeLongs_shape price lots q).1]
  exact coverShorts_pos price lots q hpos

theorem closeLongs_exact (price : ℚ) (lots : List Lot)
    (hpos : ∀ l ∈ lots, 0 < l.remaining_qty) :
    (closeLongs price lots (lotTotal lots)).1 = []
      ∧ (closeLongs price lots (lotTotal lots)).2.1 = 0 := by
  refine ⟨?_, ?_⟩
  · rw [(closeLongs_shape price lots (lotTotal lots)).1]
    exact (coverShorts_exact price lots hpos).1
  · rw [(closeLongs_shape price lots (lotTotal lots)).2]
    exact (coverShorts_exact price lots hpos).2

/-! ### Reachability invariants of the engine state -/

/-- The engine-state invariant: all open lots are strictly positive,
the two queues are never both non-empty, and the running position is
the signed sum of the open lot quantities. -/
def Inv (st : EngineState) : Prop :=
  (∀ l ∈ st.open_long_lots, 0 < l.remaining_qty)
    ∧ (∀ l ∈ st.open_short_lots, 0 < l.remaining_qty)
    ∧ (st.open_long_lots = [] ∨ st.open_short_lots = [])
    ∧ st.running_position = lotTotal st.open_long_lots - lotTotal st.open_short_lots

theorem initState_inv : Inv initState := by
  refine ⟨?_, ?_, ?_, ?_⟩ <;> simp [initState, lotTotal_nil]

/-- Processing any single trade preserves the invariant. -/
theorem processTrade_inv (st : EngineState) (t : Trade) (h : Inv st) :
    Inv (processTrade st t).1 := by
  obtain ⟨hL, hS, hmx, hpos⟩ := h
  by_cases hq : 0 < t.quantity
  · rw [processTrade_buy st t hq, finishTrade_state]
    have htot := coverShorts_total t.price st.open_short_lots t.quantity
    have hnn := coverShorts_leftover_nonneg t.price st.open_short_lots t.quantity
      (le_of_lt hq)
    by_cases hl : 0 < (coverShorts t.price st.open_short_lots t.quantity).2.1
    · have hemp := coverShorts_leftover_pos t.price st.open_short_lots t.quantity hl
      refine ⟨?_, ?_, ?_, ?_⟩
      · simp only [if_pos hl]
        intro l hlm
        rcases List.mem_append.mp hlm with hmem | hmem
        · exact hL l hmem
        · simp at hmem; subst hmem; exact hl
      · simp only [hemp]
        exact fun l h => absurd h (List.not_mem_nil l)
      · exact Or.inr hemp
      · simp only [if_pos hl, lotTotal_append, lotTotal_cons, lotTotal_nil, hemp]
        rw [hemp] at htot
        simp [lotTotal_nil] at htot
        linarith
    · have hzero : (coverShorts t.price st.open_short_lots t.quantity).2.1 = 0 :=
        le_antisymm (not_lt.mp hl) hnn
      refine ⟨?_, ?_, ?_, ?_⟩
      · simpa [if_neg hl] using hL
      · exact coverShorts_pos t.price st.open_short_lots t.quantity hS
      · rcases hmx with hmL | hmS
        · exact Or.inl (by simpa [if_neg hl] using hmL)
        · exact Or.inr (by simp [hmS, coverShorts_nil])
      · simp only [if_neg hl]
        rw [hzero] at htot
        linarith
  · rw [processTrade_sell st t hq, finishTrade_state]
    have habs : |t.quantity| = -t.quantity := abs_of_nonpos (not_lt.mp hq)
    have htot := closeLongs_total t.price st.open_long_lots (|t.quantity|)
    have hnn := closeLongs_leftover_nonneg t.price st.open_long_lots (|t.quantity|)
      (abs_nonneg t.quantity)
    by_cases hl : 0 < (closeLongs t.price st.open_long_lots (|t.quantity|)).2.1
    · have hemp := closeLongs_leftover_pos t.price st.open_long_lots (|t.quantity|) hl
      refine ⟨?_, ?_, ?_, ?_⟩
      · simp only [hemp]
        exact fun l h => absurd h (List.not_mem_nil l)
      · simp only [if_pos hl]
        intro l hlm
        rcases List.mem_append.mp hlm with hmem | hmem
        · exact hS l hmem
        · simp at hmem; subst hmem; exact hl
      · exact Or.inl hemp
      · simp only [if_pos hl, lotTotal_append, lotTotal_cons, lotTotal_nil, hemp]
        rw [hemp] at htot
        simp [lotTotal_nil] at htot
        linarith [habs]
    · have hzero : (closeLongs t.price st.open_long_lots (|t.quantity|)).2.1 = 0 :=
        le_antisymm (not_lt.mp hl) hnn
      refine ⟨?_, ?_, ?_, ?_⟩
      · exact closeLongs_pos t.price st.open_long_lots (|t.quantity|) hL
      · simpa [if_neg hl] using hS
      · rcases hmx with hmL | hmS
        · exact Or.inl (by simp [hmL, closeLongs_nil])
        · exact Or.inr (by simpa [if_neg hl] using hmS)
      · simp only [if_neg hl]
        rw [hzero] at htot
        linarith [habs]

/-- The invariant holds after replaying any trade list from any state
satisfying it; in particular from the initial state. -/
theorem runState_inv (st : EngineState) (ts : List Trade) (h : Inv st) :
    Inv (runState st ts) := by
  induction ts generalizing st with
  | nil => exact h
  | cons t ts ih => exact ih _ (processTrade_inv st t h)

/-- The running position accumulates exactly the processed quantities. -/
theorem runState_running (st : EngineState) (ts : List Trade) :
    (runState st ts).running_position
      = st.running_position + (ts.map Trade.quantity).sum := by
  induction ts generalizing st with
  | nil => simp [runState_nil]
  | cons t ts ih =>
    rw [runState_cons, ih, processTrade_running]
    simp
    ring

/-- The i-th emitted ledger row is the row produced by processing the
i-th trade in the state reached after the first i trades. -/
theorem runRows_getElem (st : EngineState) (ts : List Trade) (i : ℕ)
    (h : i < ts.length) :
    (runRows st ts)[i]?
      = some (processTrade (runState st (ts.take i)) ts[i]).2 := by
  induction ts generalizing st i with
  | nil => exact absurd h (by simp)
  | cons t ts ih =>
    cases i with
    | zero => simp [runRows_cons, runState_nil]
    | succ i =>
      have hi : i < ts.length := by simpa using h
      rw [runRows_cons]
      simpa [runState_cons] using ih (processTrade st t).1 i hi

/-- From a state with no open shorts, a run of buys opens one long lot
per buy, appended in trade order; no short lot ever appears. -/
theorem runState_buys (bs : List Trade) : ∀ st : EngineState,
    (∀ t ∈ bs, 0 < t.quantity) → st.open_short_lots = [] →
      (runState st bs).open_long_lots
          = st.open_long_lots
            ++ bs.map (fun t => { remaining_qty := t.quantity, price := t.price })
        ∧ (runState st bs).open_short_lots = [] := by
  induction bs with
  | nil => intro st _ hsh; simp [runState_nil, hsh]
  | cons b bs ih =>
    intro st hb hsh
    have hbq : 0 < b.quantity := hb b (List.mem_cons_self b bs)
    have hstep : (processTrade st b).1 =
        { open_long_lots := st.open_long_lots
            ++ [{ remaining_qty := b.quantity, price := b.price }],
          open_short_lots := [],
          running_position := st.running_position + b.quantity,
          realized_pnl_total := st.realized_pnl_total + 0,
          unrealized_pnl := some (markUnrealized b.price
            (st.open_long_lots ++ [{ remaining_qty := b.quantity, price := b.price }]) []) } := by
      rw [processTrade_buy st b hbq, finishTrade_state, hsh, coverShorts_nil]
      simp [hbq]
    rw [runState_cons]
    have hsh' : (processTrade st b).1.open_short_lots = [] := by rw [hstep]
    obtain ⟨hA, hB⟩ :=
      ih (processTrade st b).1 (fun t ht => hb t (List.mem_cons_of_mem b ht)) hsh'
    refine ⟨?_, hB⟩
    rw [hA, hstep]
    simp [List.append_assoc]

/-- Any iteration of the loop leaves the loop-local `unrealized_pnl`
bound, and its final value marks the final queues at the last trade's
price. -/
theorem runState_unrealized_some (ts : List Trade) : ∀ (st : EngineState) (t : Trade),
    ts.getLast? = some t →
    (runState st ts).unrealized_pnl
      = some (markUnrealized t.price
          (runState st ts).open_long_lots (runState st ts).open_short_lots) := by
  induction ts with
  | nil => intro st t h; simp at h
  | cons t0 ts ih =>
    intro st t hlast
    by_cases hts : ts = []
    · subst hts
      simp only [List.getLast?_singleton, Option.some.injEq] at hlast
      subst hlast
      simp only [runState_cons, runState_nil]
      exact processTrade_unrealized _ _
    · obtain ⟨u, us, rfl⟩ := List.exists_cons_of_ne_nil hts
      rw [List.getLast?_cons_cons] at hlast
      rw [runState_cons]
      exact ih (processTrade st t0).1 t hlast

/-- A trade that exactly matches the whole opposite queue, processed
from an invariant state, leaves both queues empty, position zero and
row-level unrealized P&L zero. -/
theorem processTrade_zero_close (st : EngineState) (t : Trade)
    (hinv : Inv st) (hqz : t.quantity ≠ 0)
    (hcase : (t.quantity < 0 ∧ -t.quantity = lotTotal st.open_long_lots)
      ∨ (0 < t.quantity ∧ t.quantity = lotTotal st.open_short_lots)) :
    (processTrade st t).1.open_long_lots = []
      ∧ (processTrade st t).1.open_short_lots = []
      ∧ (processTrade st t).1.running_position = 0
      ∧ (processTrade st t).2.total_unrealized_pnl = 0 := by
  obtain ⟨hL, hS, hmx, hpos⟩ := hinv
  rcases hcase with ⟨hneg, htotL⟩ | ⟨hposq, htotS⟩
  · -- a sell whose size is the whole long queue
    have hq : ¬ 0 < t.quantity := not_lt.mpr (le_of_lt hneg)
    have habs : |t.quantity| = -t.quantity := abs_of_nonpos (le_of_lt hneg)
    have hexact := closeLongs_exact t.price st.open_long_lots hL
    have hargs : (|t.quantity|) = lotTotal st.open_long_lots := by rw [habs, htotL]
    have hLne : st.open_long_lots ≠ [] := by
      intro hnil
      rw [hnil, lotTotal_nil] at htotL
      exact hqz (by linarith)
    have hSnil : st.open_short_lots = [] := (hmx.resolve_left hLne)
    rw [processTrade_sell st t hq, finishTrade_state, finishTrade_unreal]
    rw [hargs]
    have h1 := hexact.1
    have h2 := hexact.2
    refine ⟨h1, ?_, ?_, ?_⟩
    · rw [if_neg (by rw [h2]; exact lt_irrefl 0), hSnil]
    · rw [hpos, htotL.symm, hSnil, lotTotal_nil]
      ring
    · rw [h1, if_neg (by rw [h2]; exact lt_irrefl 0), hSnil]
      simp [markUnrealized]
  · -- a buy whose size is the whole short queue
    have habs : t.quantity = lotTotal st.open_short_lots := htotS
    have hexact := coverShorts_exact t.price st.open_short_lots hS
    have hSne : st.open_short_lots ≠ [] := by
      intro hnil
      rw [hnil, lotTotal_nil] at htotS
      exact hqz (by linarith)
    have hLnil : st.open_long_lots = [] := (hmx.resolve_right hSne)
    rw [processTrade_buy st t hposq, finishTrade_state, finishTrade_unreal]
    rw [habs]
    have h1 := hexact.1
    have h2 := hexact.2
    refine ⟨?_, h1, ?_, ?_⟩
    · rw [if_neg (by rw [h2]; exact lt_irrefl 0), hLnil]
    · rw [hpos, hLnil, lotTotal_nil]
      ring
    · rw [h1, if_neg (by rw [h2]; exact lt_irrefl 0), hLnil]
      simp [markUnrealized]

/-- On a non-empty tape the function returns the rows and the summary
built from the final state, with the final unrealized P&L marked at
the last trade's price. -/
theorem build_concat (ts : List Trade) (t : Trade) :
    build_fifo_ledger (ts ++ [t])
      = some (runRows initState (ts ++ [t]),
          mkSummary (runState initState (ts ++ [t]))
            (markUnrealized t.price (runState initState (ts ++ [t])).open_long_lots
              (runState initState (ts ++ [t])).open_short_lots)) := by
  have h := runState_unrealized_some (ts ++ [t]) initState t (by simp)
  simp only [build_fifo_ledger, h]

/-! ### Concrete tapes used by the spec's literal scenarios -/

/-- Scenario 4 of the spec: buy 10 at 5, buy 10 at 7, sell 15 at 9. -/
def tapeScenario4 : List Trade := [⟨0, 10, 5⟩, ⟨1, 10, 7⟩, ⟨2, -15, 9⟩]

/-- Scenario 3 of the spec: sell 100 at 30 with no prior position,
then buy 100 at 25. -/
def tapeScenario3 : List Trade := [⟨0, -100, 30⟩, ⟨1, 100, 25⟩]

/-- A tape whose final state has realized 20 and unrealized 20:
buy 10 at 5, then sell 5 at 9. -/
def tapeC8 : List Trade := [⟨0, 10, 5⟩, ⟨1, -5, 9⟩]

/-- A tape containing a zero-quantity trade. -/
def tapeZeroQty : List Trade := [⟨0, 0, 1⟩]

/-- A small valid tape used by witnesses. -/
def tapeW : List Trade := [⟨0, 10, 5⟩, ⟨1, -4, 6⟩]

/-! ### The claims -/

/-- Claim C3: for every valid trade sequence and every prefix of it,
the running position after the prefix equals the sum of the processed
quantities, and equals the total remaining long-lot quantity minus the
total remaining short-lot quantity. -/
theorem C3_conservation (trades : List Trade) (hv : ValidTrades trades) (n : ℕ) :
    (runState initState (trades.take n)).running_position
        = ((trades.take n).map Trade.quantity).sum
      ∧ (runState initState (trades.take n)).running_position
        = lotTotal (runState initState (trades.take n)).open_long_lots
          - lotTotal (runState initState (trades.take n)).open_short_lots := by
  refine ⟨?_, (runState_inv initState (trades.take n) initState_inv).2.2.2⟩
  rw [runState_running]
  simp [initState]

theorem C3_conservation_witness :
    ValidTrades tapeW
      ∧ ((runState initState (tapeW.take 2)).running_position
            = ((tapeW.take 2).map Trade.quantity).sum
          ∧ (runState initState (tapeW.take 2)).running_position
            = lotTotal (runState initState (tapeW.take 2)).open_long_lots
              - lotTotal (runState initState (tapeW.take 2)).open_short_lots) :=
  ⟨by intro t ht; simp [tapeW] at ht; rcases ht with rfl | rfl <;> norm_num,
   C3_conservation tapeW
     (by intro t ht; simp [tapeW] at ht; rcases ht with rfl | rfl <;> norm_num) 2⟩

/-- Claim C4: at every point of the replay the long-lot queue and the
short-lot queue are never both non-empty. -/
theorem C4_mutual_exclusivity (trades : List Trade) (hv : ValidTrades trades) (n : ℕ) :
    (runState initState (trades.take n)).open_long_lots = []
      ∨ (runState initState (trades.take n)).open_short_lots = [] :=
  (runState_inv initState (trades.take n) initState_inv).2.2.1

theorem C4_mutual_exclusivity_witness :
    ValidTrades tapeW
      ∧ ((runState initState (tapeW.take 1)).open_long_lots = []
          ∨ (runState initState (tapeW.take 1)).open_short_lots = []) :=
  ⟨by intro t ht; simp [tapeW] at ht; rcases ht with rfl | rfl <;> norm_num,
   C4_mutual_exclusivity tapeW
     (by intro t ht; simp [tapeW] at ht; rcases ht with rfl | rfl <;> norm_num) 1⟩

/-- Claim C5: the side label of every ledger row is fixed by the
emptiness of the opposite-side queue as it stands at entry to the
trade's processing, before this trade's matching mutates any queue. -/
theorem C5_side_label_at_entry (trades : List Trade) (hv : ValidTrades trades)
    (i : ℕ) (h : i < trades.length) :
    ((runRows initState trades).map LedgerRow.side)[i]?
      = some (if 0 < trades[i].quantity
          then (if (runState initState (trades.take i)).open_short_lots ≠ []
            then "BUY (Cover Short)" else "BUY (Open Long)")
          else (if (runState initState (trades.take i)).open_long_lots ≠ []
            then "SELL (Close Long)" else "SELL (Open Short)")) := by
  rw [List.getElem?_map, runRows_getElem initState trades i h]
  simp [processTrade_side]

theorem C5_side_label_at_entry_witness :
    (ValidTrades tapeW ∧ 1 < tapeW.length)
      ∧ ((runRows initState tapeW).map LedgerRow.side)[1]?
          = some (if 0 < tapeW[1].quantity
              then (if (runState initState (tapeW.take 1)).open_short_lots ≠ []
                then "BUY (Cover Short)" else "BUY (Open Long)")
              else (if (runState initState (tapeW.take 1)).open_long_lots ≠ []
                then "SELL (Close Long)" else "SELL (Open Short)")) :=
  ⟨⟨by intro t ht; simp [tapeW] at ht; rcases ht with rfl | rfl <;> norm_num,
    by simp [tapeW]⟩,
   C5_side_label_at_entry tapeW
     (by intro t ht; simp [tapeW] at ht; rcases ht with rfl | rfl <;> norm_num) 1
     (by simp [tapeW])⟩

/-- Claim C9: the engine is a pure, deterministic function of its
input sequence: two runs on the same sequence yield identical ledgers
and identical summaries. -/
theorem C9_deterministic (t1 t2 : List Trade) (h : t1 = t2) :
    build_fifo_ledger t1 = build_fifo_ledger t2 := by rw [h]

theorem C9_deterministic_witness :
    tapeW = tapeW ∧ build_fifo_ledger tapeW = build_fifo_ledger tapeW :=
  ⟨rfl, C9_deterministic tapeW tapeW rfl⟩

/-- Claim C10: on the empty trade sequence the function does not
return an empty ledger with a zero summary: the summary construction
reads the loop-local `unrealized_pnl`, which is never bound when the
loop body never runs, so the call fails (Python `NameError`, modelled
as `none`) before producing any result. -/
theorem C10_empty_input_name_error : build_fifo_ledger [] = none := rfl

/-- Claim C1: within a single trade's matching loop the opposite-side
queue is consumed strictly oldest-first.  After a block of buys (at
pairwise distinct prices) processed from a flat book, followed by a
sell that only partially consumes the first lot, the lot consumed is
the earliest still-open buy lot — its unit cost is the FIRST buy's
price — and only that head lot is reduced; the cheaper or more recent
lots are untouched. -/
theorem C1_fifo_oldest_first (b : Trade) (bs : List Trade) (s : Trade)
    (hb : 0 < b.quantity) (hbs : ∀ t ∈ bs, 0 < t.quantity)
    (hdist : ((b :: bs).map Trade.price).Pairwise (fun p q => p ≠ q))
    (hs : s.quantity < 0) (hpart : -s.quantity < b.quantity) :
    (processTrade (runState initState (b :: bs)) s).1.open_long_lots
        = { remaining_qty := b.quantity + s.quantity, price := b.price }
          :: bs.map (fun t => { remaining_qty := t.quantity, price := t.price })
      ∧ (processTrade (runState initState (b :: bs)) s).2.realized_pnl_trade
        = (-s.quantity) * (s.price - b.price) := by
  have hall : ∀ t ∈ b :: bs, 0 < t.quantity := by
    intro t ht
    rcases List.mem_cons.mp ht with rfl | h
    · exact hb
    · exact hbs t h
  obtain ⟨hlongs, hshorts⟩ := runState_buys (b :: bs) initState hall rfl
  have hlongs' : (runState initState (b :: bs)).open_long_lots
      = { remaining_qty := b.quantity, price := b.price }
        :: bs.map (fun t => { remaining_qty := t.quantity, price := t.price }) := by
    simpa using hlongs
  have hq : ¬ 0 < s.quantity := not_lt.mpr (le_of_lt hs)
  have habs : |s.quantity| = -s.quantity := abs_of_nonpos (le_of_lt hs)
  have hq0 : 0 < -s.quantity := neg_pos.mpr hs
  have hmin : min b.quantity (-s.quantity) = -s.quantity :=
    min_eq_right (le_of_lt hpart)
  have hne : ¬ (b.quantity - -s.quantity = 0) := by
    intro h0
    have : b.quantity = -s.quantity := by linarith
    exact absurd (this ▸ hpart) (lt_irrefl _)
  have hcl : closeLongs s.price (runState initState (b :: bs)).open_long_lots
        (|s.quantity|)
      = ({ remaining_qty := b.quantity - -s.quantity, price := b.price }
            :: bs.map (fun t => { remaining_qty := t.quantity, price := t.price }),
          -s.quantity - -s.quantity, -s.quantity * (s.price - b.price)) := by
    rw [hlongs', habs, closeLongs_cons]
    simp only [hmin, if_pos hq0, if_neg hne]
  rw [processTrade_sell _ s hq]
  constructor
  · show (closeLongs s.price (runState initState (b :: bs)).open_long_lots
        (|s.quantity|)).1 = _
    rw [hcl]
    have : b.quantity - -s.quantity = b.quantity + s.quantity := by ring
    rw [this]
  · show (closeLongs s.price (runState initState (b :: bs)).open_long_lots
        (|s.quantity|)).2.2 = _
    rw [hcl]

theorem C1_fifo_oldest_first_witness :
    ((0:ℚ) < 10 ∧ (∀ t ∈ ([⟨1, 10, 7⟩] : List Trade), 0 < t.quantity)
        ∧ (-4:ℚ) < 0 ∧ (4:ℚ) < 10)
      ∧ (processTrade (runState initState [⟨0, 10, 5⟩, ⟨1, 10, 7⟩]) ⟨2, -4, 9⟩).1.open_long_lots
          = [{ remaining_qty := 6, price := 5 }, { remaining_qty := 10, price := 7 }]
      ∧ (processTrade (runState initState [⟨0, 10, 5⟩, ⟨1, 10, 7⟩]) ⟨2, -4, 9⟩).2.realized_pnl_trade
          = 16 := by
  have h := C1_fifo_oldest_first ⟨0, 10, 5⟩ [⟨1, 10, 7⟩] ⟨2, -4, 9⟩
    (by norm_num)
    (by intro t ht; simp at ht; subst ht; norm_num)
    (by simp [List.pairwise_cons])
    (by norm_num)
    (by norm_num)
  refine ⟨⟨by norm_num, by intro t ht; simp at ht; subst ht; norm_num,
    by norm_num, by norm_num⟩, ?_, ?_⟩
  · have h1 := h.1
    norm_num at h1
    exact h1
  · have h2 := h.2
    norm_num at h2
    exact h2

/-- Claim C2: the realized P&L recorded for a trade is the sum over
its matches of matched quantity times (trade price minus long-lot cost)
for sells, and matched quantity times (short-lot cost minus trade
price) for buys, each match being of size
min(lot remaining quantity, remaining trade quantity) taken from the
queue front; in particular for buy 10 at 5, buy 10 at 7, sell 15 at 9
the sell realizes 50, one long lot of 5 units at cost 7 remains and
the running position is 5. -/
theorem C2_realized_pnl :
    (∀ (price : ℚ) (lots : List Lot) (q : ℚ),
        (closeLongs price lots q).2.2
          = ((lotMatches lots q).map (fun m => m.1 * (price - m.2))).sum)
      ∧ (∀ (price : ℚ) (lots : List Lot) (q : ℚ),
        (coverShorts price lots q).2.2
          = ((lotMatches lots q).map (fun m => m.1 * (m.2 - price))).sum)
      ∧ (∀ (lot : Lot) (rest : List Lot) (q : ℚ), 0 < q →
        lotMatches (lot :: rest) q
          = (min lot.remaining_qty q, lot.price)
            :: (if lot.remaining_qty - min lot.remaining_qty q = 0
                then lotMatches rest (q - min lot.remaining_qty q) else []))
      ∧ ((runRows initState tapeScenario4).map (fun r => r.realized_pnl_trade)
            = [0, 0, 50]
          ∧ (runState initState tapeScenario4).open_long_lots
              = [{ remaining_qty := 5, price := 7 }]
          ∧ (runState initState tapeScenario4).running_position = 5) := by
  refine ⟨closeLongs_realized, coverShorts_realized, ?_, ?_, ?_, ?_⟩
  · intro lot rest q hq
    rw [lotMatches_cons, if_pos hq]
    split_ifs <;> rfl
  · norm_num [tapeScenario4, runRows, runState, processTrade, initState, coverShorts,
      closeLongs, finishTrade, markUnrealized]
  · norm_num [tapeScenario4, runRows, runState, processTrade, initState, coverShorts,
      closeLongs, finishTrade, markUnrealized]
  · norm_num [tapeScenario4, runRows, runState, processTrade, initState, coverShorts,
      closeLongs, finishTrade, markUnrealized]

theorem C2_realized_pnl_witness :
    (0:ℚ) < 3
      ∧ lotMatches [{ remaining_qty := 2, price := 7 }] 3
        = (min (2:ℚ) 3, (7:ℚ))
          :: (if (2:ℚ) - min (2:ℚ) 3 = 0 then lotMatches [] (3 - min (2:ℚ) 3) else []) :=
  ⟨by norm_num, C2_realized_pnl.2.2.1 ⟨2, 7⟩ [] 3 (by norm_num)⟩

/-- Claim C6 (corrected, counterexample): the engine performs no input
validation: on a tape containing a zero-quantity trade it raises
nothing; it emits one ledger row for that trade (classified through
the sell branch) and returns a complete ledger and summary. -/
theorem C6_no_validation_cex :
    build_fifo_ledger tapeZeroQty
      = some ([{ trade_date := 0, side := "SELL (Open Short)", quantity := 0, price := 1,
                 trade_notional := 0, gross_notional := 0, running_position := 0,
                 avg_cost_basis := 0, realized_pnl_trade := 0, total_realized_pnl := 0,
                 total_unrealized_pnl := 0 }],
          [("Final Position", 0), ("Total Realized PnL", 0), ("Final Unrealized PnL", 0),
           ("Open Long Lots", 0), ("Open Short Lots", 0)]) := by
  norm_num [tapeZeroQty, build_fifo_ledger, runState, runRows, processTrade, initState,
    closeLongs, finishTrade, markUnrealized, mkSummary]

/-- Claim C6 (amended): the engine performs no input validation at all
(there is no `InvalidInputError` in the code): every non-empty input
sequence, including ones with zero-quantity or non-positive-price
trades, is processed to a complete ledger with exactly one row per
trade and a summary; nothing is rejected at entry. -/
theorem C6_no_validation (trades : List Trade) (h : trades ≠ []) :
    ∃ rows summary, build_fifo_ledger trades = some (rows, summary)
      ∧ rows.length = trades.length := by
  rcases List.eq_nil_or_concat trades with rfl | ⟨ts, t, rfl⟩
  · exact absurd rfl h
  · rw [List.concat_eq_append]
    exact ⟨runRows initState (ts ++ [t]), _, build_concat ts t,
      runRows_length initState (ts ++ [t])⟩

theorem C6_no_validation_witness :
    tapeZeroQty ≠ []
      ∧ ∃ rows summary, build_fifo_ledger tapeZeroQty = some (rows, summary)
        ∧ rows.length = tapeZeroQty.length :=
  ⟨by simp [tapeZeroQty], C6_no_validation tapeZeroQty (by simp [tapeZeroQty])⟩

/-- Claim C7: a closing trade whose quantity exactly equals the total
remaining quantity of the opposite queue empties both queues, opens no
new lot, drives the running position to exactly 0 and makes that row's
unrealized P&L exactly 0; in particular for sell 100 at 30 then buy
100 at 25, row 2 realizes 500, the position is 0, both queues are
empty and the unrealized P&L is 0. -/
theorem C7_zero_sum_matching :
    (∀ (ts : List Trade) (t : Trade), ValidTrades (ts ++ [t]) →
      ((t.quantity < 0
          ∧ -t.quantity = lotTotal (runState initState ts).open_long_lots)
        ∨ (0 < t.quantity
          ∧ t.quantity = lotTotal (runState initState ts).open_short_lots)) →
      (runState initState (ts ++ [t])).open_long_lots = []
        ∧ (runState initState (ts ++ [t])).open_short_lots = []
        ∧ (runState initState (ts ++ [t])).running_position = 0
        ∧ ((runRows initState (ts ++ [t])).map
            (fun r => r.total_unrealized_pnl))[ts.length]? = some 0)
      ∧ ((runRows initState tapeScenario3).map
            (fun r => (r.side, r.realized_pnl_trade, r.running_position,
              r.total_unrealized_pnl))
          = [("SELL (Open Short)", 0, -100, 0), ("BUY (Cover Short)", 500, 0, 0)]
        ∧ (runState initState tapeScenario3).open_long_lots = []
        ∧ (runState initState tapeScenario3).open_short_lots = []) := by
  constructor
  · intro ts t hv hcase
    have hqz : t.quantity ≠ 0 := (hv t (by simp)).1
    have hinv := runState_inv initState ts initState_inv
    have hz := processTrade_zero_close (runState initState ts) t hinv hqz hcase
    have hstate : runState initState (ts ++ [t])
        = (processTrade (runState initState ts) t).1 := by
      rw [runState_append, runState_cons, runState_nil]
    refine ⟨by rw [hstate]; exact hz.1, by rw [hstate]; exact hz.2.1,
      by rw [hstate]; exact hz.2.2.1, ?_⟩
    rw [runRows_append, List.map_append, List.getElem?_append_right
      (by simp [runRows_length]), List.length_map, runRows_length]
    simp only [Nat.sub_self, runRows_cons, runRows_nil, List.map_cons, List.map_nil,
      List.getElem?_cons_zero]
    rw [hz.2.2.2]
  · refine ⟨?_, ?_, ?_⟩ <;>
      norm_num [tapeScenario3, runRows, runState, processTrade, initState, coverShorts,
        closeLongs, finishTrade, markUnrealized]

theorem C7_zero_sum_matching_witness :
    (ValidTrades ([⟨0, -100, 30⟩] ++ [⟨1, 100, 25⟩])
        ∧ (0:ℚ) < (100:ℚ)
        ∧ (100:ℚ) = lotTotal (runState initState [⟨0, -100, 30⟩]).open_short_lots)
      ∧ ((runState initState ([⟨0, -100, 30⟩] ++ [⟨1, 100, 25⟩])).open_long_lots = []
        ∧ (runState initState ([⟨0, -100, 30⟩] ++ [⟨1, 100, 25⟩])).open_short_lots = []
        ∧ (runState initState ([⟨0, -100, 30⟩] ++ [⟨1, 100, 25⟩])).running_position = 0
        ∧ ((runRows initState ([⟨0, -100, 30⟩] ++ [⟨1, 100, 25⟩])).map
            (fun r => r.total_unrealized_pnl))[([⟨0, -100, 30⟩] : List Trade).length]?
          = some 0) := by
  have hv : ValidTrades ([⟨0, -100, 30⟩] ++ [⟨1, 100, 25⟩]) := by
    intro t ht; simp at ht; rcases ht with rfl | rfl <;> norm_num
  have htot : (100:ℚ) = lotTotal (runState initState [⟨0, -100, 30⟩]).open_short_lots := by
    norm_num [runState, processTrade, initState, closeLongs, finishTrade, lotTotal]
  exact ⟨⟨hv, by norm_num, htot⟩,
    C7_zero_sum_matching.1 [⟨0, -100, 30⟩] ⟨1, 100, 25⟩ hv (Or.inr ⟨by norm_num, htot⟩)⟩

/-- Claim C8 (corrected, counterexample): the summary does not contain
the final total P&L.  On the tape buy 10 at 5, sell 5 at 9 the final
cumulative realized P&L is 20 and the final unrealized P&L is 20, so
the final total P&L would be 40; the summary's five values are exactly
final position 5, realized 20, unrealized 20 and the two lot counts 1
and 0 — no entry carries 40. -/
theorem C8_summary_missing_total_pnl :
    (build_fifo_ledger tapeC8).map (fun p => p.2.map Prod.snd)
        = some [5, 20, 20, 1, 0]
      ∧ (20 : ℚ) + 20 = 40
      ∧ (40 : ℚ) ∉ ([5, 20, 20, 1, 0] : List ℚ) := by
  refine ⟨?_, by norm_num, by norm_num⟩
  norm_num [tapeC8, build_fifo_ledger, runState, runRows, processTrade, initState,
    coverShorts, closeLongs, finishTrade, markUnrealized, mkSummary]

/-- Claim C8 (amended): for every non-empty input the summary is read
off the final state after the last trade without further mutation and
contains exactly: the final running position, the final cumulative
realized P&L, the final unrealized P&L marked at the last trade's
price, and the counts of remaining open long and short lots — but no
total P&L entry. -/
theorem C8_summary_from_final_state (ts : List Trade) (t : Trade) :
    build_fifo_ledger (ts ++ [t])
      = some (runRows initState (ts ++ [t]),
          [("Final Position", (runState initState (ts ++ [t])).running_position),
           ("Total Realized PnL", (runState initState (ts ++ [t])).realized_pnl_total),
           ("Final Unrealized PnL",
              markUnrealized t.price (runState initState (ts ++ [t])).open_long_lots
                (runState initState (ts ++ [t])).open_short_lots),
           ("Open Long Lots",
              ((runState initState (ts ++ [t])).open_long_lots.length : ℚ)),
           ("Open Short Lots",
              ((runState initState (ts ++ [t])).open_short_lots.length : ℚ))]) := by
  rw [build_concat]
  rfl

end TradeBlotter
